import Mathlib

/-!
Shallow embedding of the core components of the Translate repository:
the per-meeting sequence allocator and translation fanout
(terraform/functions/process_audio/main.py), the reorder buffer of the
translation worker (terraform/modules/translation_worker/src/translation_worker.py,
which stores pending messages in a CPython heapq binary heap), the
cursor-based retrieval endpoint (terraform/functions/get_translations/main.py)
and the join endpoint (terraform/functions/join_meeting/main.py).

Timestamps and times (Python floats) are modelled as rationals; Firestore
documents are modelled as explicit option-valued states, with the
transactional read-modify-write sequentialised into explicit state passing.
-/

namespace Translate

/-- Payload fields of a buffered worker message (the dict keys the worker reads);
the capture timestamp may be absent from the payload. -/
structure MessageData where
  timestamp : Option ℚ
  text : String
  sourceLanguage : String
deriving Repr, DecidableEq, Inhabited

/-- Mirrors the worker's PendingMessage dataclass; the generated order compares
only the timestamp field (the other two fields are marked compare=False). -/
structure PendingMessage where
  timestamp : ℚ
  message : MessageData
  message_id : String
deriving Repr, DecidableEq, Inhabited

/-- The comparison generated for PendingMessage: strictly less on timestamps. -/
def pmLt (a b : PendingMessage) : Bool := decide (a.timestamp < b.timestamp)

/-! ### CPython heapq, specialised to lists of PendingMessage

The worker buffers messages with heapq.heappush and drains them with
heapq.heappop, so the embedding reproduces CPython's sift routines verbatim
(list indexing becomes List.getD / List.set). -/

/-- Loop of heapq._siftdown: bubble `newitem` from `pos` towards `startpos`,
moving each strictly greater parent down, and write `newitem` at the final
hole. The position strictly decreases every iteration, so a fuel of `pos`
reproduces the while loop exactly (fuel 0 forces `pos = 0` at every call
site, where the loop guard is false anyway). -/
def siftdownLoop (newitem : PendingMessage) (startpos : Nat) :
    Nat → List PendingMessage → Nat → List PendingMessage
  | 0, heap, pos => heap.set pos newitem
  | fuel + 1, heap, pos =>
    if startpos < pos then
      let parentpos := (pos - 1) / 2
      let parent := heap.getD parentpos default
      if pmLt newitem parent then
        siftdownLoop newitem startpos fuel (heap.set pos parent) parentpos
      else
        heap.set pos newitem
    else
      heap.set pos newitem

/-- heapq.heappush: append the item, then sift it down from the last index. -/
def heappush (heap : List PendingMessage) (item : PendingMessage) : List PendingMessage :=
  siftdownLoop item 0 heap.length (heap ++ [item]) heap.length

/-- Child selection of heapq._siftup: the right child when it exists and the
left child is not strictly smaller, the left child otherwise. -/
def chooseChild (endpos : Nat) (heap : List PendingMessage) (pos : Nat) : Nat :=
  if 2 * pos + 2 < endpos ∧
      ¬ pmLt (heap.getD (2 * pos + 1) default) (heap.getD (2 * pos + 2) default) = true
  then 2 * pos + 2
  else 2 * pos + 1

/-- Descent loop of heapq._siftup: move the hole at `pos` down along the
selected-child path to a leaf, pulling each selected child up; returns the
final heap and the hole's final position. The position strictly increases and
stays below `endpos` every iteration, so a fuel of `endpos - pos` reproduces
the while loop exactly (with fuel 0 the loop guard is false). -/
def siftupLoop (endpos : Nat) :
    Nat → List PendingMessage → Nat → List PendingMessage × Nat
  | 0, heap, pos => (heap, pos)
  | fuel + 1, heap, pos =>
    if 2 * pos + 1 < endpos then
      let c := chooseChild endpos heap pos
      siftupLoop endpos fuel (heap.set pos (heap.getD c default)) c
    else
      (heap, pos)

/-- heapq._siftup: descend the hole to a leaf, then sift the item that was at
`pos` back down from the leaf (CPython writes it at the leaf first; the final
_siftdown call folds that write in). -/
def siftup (heap : List PendingMessage) (pos : Nat) : List PendingMessage :=
  let newitem := heap.getD pos default
  let r := siftupLoop heap.length heap.length heap pos
  siftdownLoop newitem pos r.2 r.1 r.2

/-- heapq.heappop: detach the last element; if the heap is still nonempty,
return the root, move the last element to the root and repair with _siftup.
Returns none on an empty heap (CPython raises IndexError). -/
def heappop (heap : List PendingMessage) : Option (PendingMessage × List PendingMessage) :=
  match heap with
  | [] => none
  | [x] => some (x, [])
  | x :: y :: ys =>
    some (x, siftup (((x :: y :: ys).dropLast).set 0
      ((x :: y :: ys).getLast (by simp))) 0)

/-! ### MessageBuffer (translation_worker.py) -/

/-- The buffer map of MessageBuffer: meeting code to that meeting's heap, kept
in first-insertion order (Python dict iteration order). -/
abbrev Buffer := List (String × List PendingMessage)

/-- MessageBuffer.add_message: create the meeting's entry if absent, then push
PendingMessage(float(message_data.get('timestamp', 0)), message_data,
message_id) onto its heap. -/
def add_message (buf : Buffer) (meeting_code : String) (message_data : MessageData)
    (message_id : String) : Buffer :=
  match buf with
  | [] => [(meeting_code, heappush [] ⟨message_data.timestamp.getD 0, message_data, message_id⟩)]
  | (k, h) :: rest =>
    if k = meeting_code then
      (k, heappush h ⟨message_data.timestamp.getD 0, message_data, message_id⟩) :: rest
    else
      (k, h) :: add_message rest meeting_code message_data message_id

/-- Pop loop of get_ready_messages for one meeting: while the heap is nonempty
and the root is at least buffer_time old, heappop it onto the ready list. The
fuel argument bounds the iterations; the heap length suffices. -/
def readyLoop (buffer_time current_time : ℚ) :
    Nat → List PendingMessage → List PendingMessage × List PendingMessage
  | 0, h => ([], h)
  | _fuel + 1, [] => ([], [])
  | fuel + 1, top :: rest =>
    if buffer_time ≤ current_time - top.timestamp then
      match heappop (top :: rest) with
      | none => ([], top :: rest)
      | some (r, h') =>
        let t := readyLoop buffer_time current_time fuel h'
        (r :: t.1, t.2)
    else
      ([], top :: rest)

/-- MessageBuffer.get_ready_messages: for each meeting in buffer order, pop all
ready messages; a meeting appears in the returned map only when something was
ready; every entry (possibly emptied) stays in the buffer. -/
def get_ready_messages (buffer_time current_time : ℚ) :
    Buffer → List (String × List PendingMessage) × Buffer
  | [] => ([], [])
  | (k, h) :: rest =>
    let t := get_ready_messages buffer_time current_time rest
    if h = [] then
      (t.1, (k, h) :: t.2)
    else
      let r := readyLoop buffer_time current_time h.length h
      ((if r.1 = [] then t.1 else (k, r.1) :: t.1), (k, r.2) :: t.2)

/-! ### Sequence allocator (process_audio/main.py, get_next_sequence) -/

/-- State of a meeting's metadata/sequence document: none when the document is
absent, some v with v the optional value field of the document. -/
abbrev CounterState := Option (Option ℤ)

/-- The read half of get_next_sequence and of the registration branch of
get_translations: 0 when the document is absent, else value with default 0. -/
def counterRead : CounterState → ℤ
  | none => 0
  | some d => d.getD 0

/-- get_next_sequence: read the current value (0 if absent), write value+1,
return value+1, inside the surrounding Firestore transaction (sequentialised
here as explicit state passing). -/
def get_next_sequence (st : CounterState) : ℤ × CounterState :=
  let current := counterRead st
  (current + 1, some (some (current + 1)))

/-- Returned values of a succession of get_next_sequence calls against the same
meeting's counter, starting from state st. -/
def allocRun (st : CounterState) : Nat → List ℤ
  | 0 => []
  | n + 1 =>
    let r := get_next_sequence st
    r.1 :: allocRun r.2 n

/-! ### Translation fanout (process_audio/main.py and translation_worker.py) -/

/-- An external translate_client.translate call, recorded by its arguments
(text, target_language, source_language); the result is none when the call
raises (a per-language TranslationFailed). -/
abbrev Translator := String → String → String → Option String

/-- source_language.split('-')[0]: the prefix before the first dash (the whole
string when no dash occurs). -/
def baseLang (s : String) : String := ⟨s.data.takeWhile (fun ch => ch ≠ '-')⟩

/-- A record of one translate invocation, used to state call-count facts. -/
structure TranslateCall where
  text : String
  target : String
  source : String
deriving Repr, DecidableEq, Inhabited

/-- A document of the meeting's translations subcollection. Fields that
get_translations reads defensively (with .get defaults, or that Firestore
range queries require to be present) are Options. -/
structure TranslationDoc where
  sourceText : String
  sourceLanguage : Option String
  targetLanguage : String
  translatedText : Option String
  sequence : Option ℤ
  confidence : ℚ
  isComplete : Bool
deriving Repr, DecidableEq, Inhabited

/-- The per-target-language loop of update_in_transaction in process_audio:
a target equal to the source language (exact code) is skipped entirely; for
any other target the translator is called once, a failure is logged and
skipped, a success stores one complete record carrying the shared sequence.
Returns the stored documents and the trace of translate calls. -/
def fanoutLoop (translate : Translator) (transcription source_language : String)
    (confidence : ℚ) (sequence : ℤ) :
    List String → List TranslationDoc × List TranslateCall
  | [] => ([], [])
  | target_lang :: rest =>
    let t := fanoutLoop translate transcription source_language confidence sequence rest
    if target_lang = source_language then
      t
    else
      match translate transcription target_lang (baseLang source_language) with
      | some translated =>
        (⟨transcription, some source_language, target_lang, some translated,
            some sequence, confidence, true⟩ :: t.1,
         ⟨transcription, target_lang, baseLang source_language⟩ :: t.2)
      | none =>
        (t.1, ⟨transcription, target_lang, baseLang source_language⟩ :: t.2)

/-- update_in_transaction: allocate one sequence for the fragment, then fan out
over the meeting's target languages. -/
def update_in_transaction (translate : Translator) (target_languages : List String)
    (transcription source_language : String) (confidence : ℚ) (st : CounterState) :
    List TranslationDoc × List TranslateCall × CounterState :=
  let r := get_next_sequence st
  let f := fanoutLoop translate transcription source_language confidence r.1 target_languages
  (f.1, f.2, r.2)

/-- The message published to the per-language topic by translate_and_publish
(the publish_time wall-clock field is omitted). -/
structure PublishedMessage where
  translatedText : String
  sourceLanguage : String
  timestamp : Option ℚ
deriving Repr, DecidableEq, Inhabited

/-- translate_and_publish of the worker: when the target equals the base source
language the original text is published with no translate call; otherwise the
translator is called once and a failure produces nothing for this language. -/
def translate_and_publish (translate : Translator) (text source_language target_lang : String)
    (original_timestamp : Option ℚ) : Option PublishedMessage × List TranslateCall :=
  let source_lang := baseLang source_language
  if target_lang = source_lang then
    (some ⟨text, source_language, original_timestamp⟩, [])
  else
    match translate text target_lang source_lang with
    | some translated =>
      (some ⟨translated, source_language, original_timestamp⟩,
       [⟨text, target_lang, source_lang⟩])
    | none =>
      (none, [⟨text, target_lang, source_lang⟩])

/-- The per-target loop of _process_buffered_message: one translate_and_publish
per target language; results are keyed by the target language (its topic). -/
def worker_fanout (translate : Translator) (text source_language : String)
    (ts : Option ℚ) : List String → List (String × PublishedMessage) × List TranslateCall
  | [] => ([], [])
  | tl :: rest =>
    let h := translate_and_publish translate text source_language tl ts
    let t := worker_fanout translate text source_language ts rest
    ((match h.1 with | some m => (tl, m) :: t.1 | none => t.1), h.2 ++ t.2)

/-! ### get_translations (functions/get_translations/main.py) -/

/-- A row of the endpoint's internal results list. -/
structure ResultRec where
  translatedText : String
  sourceLanguage : String
  sequence : ℤ
deriving Repr, DecidableEq, Inhabited

/-- A record of the JSON translations array returned by the endpoint. -/
structure RespRecord where
  id : String
  messageId : String
  translatedText : String
  sourceLanguage : String
  targetLanguage : String
  sequence : ℤ
  isComplete : Bool
  empty : Bool
deriving Repr, DecidableEq, Inhabited

/-- Python str.strip(): remove leading and trailing whitespace characters. -/
def pyStrip (s : String) : String :=
  ⟨((s.data.dropWhile Char.isWhitespace).reverse.dropWhile Char.isWhitespace).reverse⟩

/-- The Firestore query filter: targetLanguage == lang, isComplete == true,
sequence > c (documents without a sequence field fall outside the range
filter). -/
def docQualifies (lang : String) (c : ℤ) (d : TranslationDoc) : Bool :=
  d.targetLanguage == lang && d.isComplete &&
    (match d.sequence with
     | some s => decide (c < s)
     | none => false)

/-- Ascending-by-sequence comparison used for order_by and for results.sort. -/
def seqLe (a b : ResultRec) : Prop := a.sequence ≤ b.sequence

instance : DecidableRel seqLe := fun a b => by unfold seqLe; infer_instance

instance : IsTotal ResultRec seqLe := ⟨fun a b => le_total a.sequence b.sequence⟩

instance : IsTrans ResultRec seqLe := ⟨fun _ _ _ h1 h2 => le_trans h1 h2⟩

/-- One execution of the query plus the row-building loop: qualifying documents
ordered by sequence, rows keeping translatedText and sourceLanguage with
defaults; rows without a sequence are dropped (none qualify anyway). -/
def resultsOf (store : List TranslationDoc) (lang : String) (c : ℤ) : List ResultRec :=
  ((store.filter (docQualifies lang c)).filterMap fun d =>
    match d.sequence with
    | some s => some ⟨d.translatedText.getD "", d.sourceLanguage.getD "", s⟩
    | none => none).insertionSort seqLe

/-- The bounded wait: poll the query once per second, k being the elapsed
seconds, stopping at the first nonempty results list; fuel instances the
15-second timeout. -/
def pollResults (storeAt : Nat → List TranslationDoc) (lang : String) (c : ℤ) :
    Nat → Nat → List ResultRec
  | _k, 0 => []
  | k, fuel + 1 =>
    let rs := resultsOf (storeAt k) lang c
    if rs = [] then pollResults storeAt lang c (k + 1) fuel else rs

/-- get_translations, as the translations array of the 200 response: a missing
sequence parameter is the registration branch; otherwise poll for qualifying
records, returning the empty sentinel carrying the unchanged cursor on timeout,
or the single concatenated record otherwise. The store is read-only for this
endpoint, given as its state at each polling second. -/
def get_translations (counter : CounterState) (storeAt : Nat → List TranslationDoc)
    (target_language : String) (cursor : Option ℤ) : List RespRecord :=
  match cursor with
  | none =>
    [⟨"registration", "registration", "", "", target_language,
      counterRead counter, true, true⟩]
  | some last_sequence =>
    let results := pollResults storeAt target_language last_sequence 0 15
    if results = [] then
      [⟨"empty_" ++ toString last_sequence, "empty_" ++ toString last_sequence,
        "", "", target_language, last_sequence, true, true⟩]
    else
      let sorted := results.insertionSort seqLe
      [⟨"concat_" ++ toString ((sorted.getLastD default).sequence),
        "concat_" ++ toString ((sorted.getLastD default).sequence),
        String.intercalate " " (sorted.map fun r => pyStrip r.translatedText),
        (sorted.headD default).sourceLanguage, target_language,
        (sorted.getLastD default).sequence, true, false⟩]

/-! ### join_meeting (functions/join_meeting/main.py) -/

/-- The meeting document: participants is the participants map in insertion
order. -/
structure MeetingDoc where
  code : String
  status : String
  targetLanguages : List String
  participants : List (String × String)
deriving Repr, DecidableEq, Inhabited

/-- The store state join_meeting touches: the meeting document and its
metadata/sequence counter document. -/
structure MeetingState where
  meeting : Option MeetingDoc
  counter : CounterState
deriving Repr, DecidableEq, Inhabited

/-- join_meeting: create the meeting (status active, one target language, one
participant) and initialise the counter at 0 when the meeting is absent;
otherwise add the participant and ArrayUnion the language into the target set
only when it is not already present. participant_id is the freshly generated
id. -/
def join_meeting (st : MeetingState) (meeting_code target_language participant_id : String) :
    MeetingState :=
  match st.meeting with
  | none =>
    { meeting := some ⟨meeting_code, "active", [target_language],
        [(participant_id, target_language)]⟩,
      counter := some (some 0) }
  | some m =>
    if target_language ∈ m.targetLanguages then
      { st with meeting := some { m with
          participants := m.participants ++ [(participant_id, target_language)] } }
    else
      { st with meeting := some { m with
          targetLanguages := m.targetLanguages ++ [target_language],
          participants := m.participants ++ [(participant_id, target_language)] } }

/-! ### Auxiliary definitions for the verification -/

/-- Indexing with the Inhabited default, the view of Python list indexing used
throughout the heap proofs. -/
def gi (l : List PendingMessage) (i : Nat) : PendingMessage := l.getD i default

/-- The binary min-heap property of heapq: every non-root entry is at least its
parent, comparing timestamps. -/
def IsHeap (l : List PendingMessage) : Prop :=
  ∀ i, 0 < i → i < l.length →
    (gi l ((i - 1) / 2)).timestamp ≤ (gi l i).timestamp

/-- Non-strict timestamp order on pending messages (release order). -/
def tsLe (a b : PendingMessage) : Prop := a.timestamp ≤ b.timestamp

instance : DecidableRel tsLe := fun a b => by unfold tsLe; infer_instance

/-- The drain readiness test of get_ready_messages. -/
def isReady (buffer_time current_time : ℚ) (p : PendingMessage) : Bool :=
  decide (buffer_time ≤ current_time - p.timestamp)

/-- Invariant of the siftdownLoop recursion (startpos 0): the hole at pos may
ignore its own edges, the hole's children dominate the pending newitem, and
the hole's children dominate the hole's parent. -/
structure SiftDownInv (heap : List PendingMessage) (newitem : PendingMessage)
    (pos : Nat) : Prop where
  pos_lt : pos < heap.length
  edges : ∀ i, 0 < i → i < heap.length → i ≠ pos → (i - 1) / 2 ≠ pos →
    (gi heap ((i - 1) / 2)).timestamp ≤ (gi heap i).timestamp
  children : ∀ i, 0 < i → i < heap.length → (i - 1) / 2 = pos →
    newitem.timestamp ≤ (gi heap i).timestamp
  gchild : ∀ i, 0 < i → i < heap.length → (i - 1) / 2 = pos → 0 < pos →
    (gi heap ((pos - 1) / 2)).timestamp ≤ (gi heap i).timestamp

/-- Invariant of the siftupLoop descent: all edges not touching the hole are
ordered, and the hole's children dominate the hole's parent. -/
structure SiftUpInv (heap : List PendingMessage) (pos : Nat) : Prop where
  pos_lt : pos < heap.length
  edges : ∀ i, 0 < i → i < heap.length → i ≠ pos → (i - 1) / 2 ≠ pos →
    (gi heap ((i - 1) / 2)).timestamp ≤ (gi heap i).timestamp
  gchild : ∀ i, 0 < i → i < heap.length → (i - 1) / 2 = pos → 0 < pos →
    (gi heap ((pos - 1) / 2)).timestamp ≤ (gi heap i).timestamp

/-- One call to MessageBuffer.add_message, recorded by its arguments. -/
structure AddOp where
  meeting_code : String
  message_data : MessageData
  message_id : String
deriving Repr, DecidableEq, Inhabited

/-- The PendingMessage that add_message builds for an add. -/
def pmOf (a : AddOp) : PendingMessage :=
  ⟨a.message_data.timestamp.getD 0, a.message_data, a.message_id⟩

/-- The buffer reached from empty by a sequence of add_message calls. -/
def addAll (adds : List AddOp) : Buffer :=
  adds.foldl (fun b a => add_message b a.meeting_code a.message_data a.message_id) []

/-- The pending messages a sequence of adds contributes to one meeting, in
arrival order. -/
def msgsFor (mc : String) (adds : List AddOp) : List PendingMessage :=
  (adds.filter fun a => a.meeting_code = mc).map pmOf

/-- The heap stored for a meeting (empty when the meeting has no entry). -/
def heapAt (buf : Buffer) (mc : String) : List PendingMessage :=
  (buf.lookup mc).getD []

/-- The released list for a meeting in a drain result (empty when the meeting
contributed nothing). -/
def readyAt (ready : List (String × List PendingMessage)) (mc : String) :
    List PendingMessage :=
  (ready.lookup mc).getD []

/-! ### Helper lemmas: indexing, set, multisets -/

theorem lt_chooseChild (endpos : Nat) (heap : List PendingMessage) (pos : Nat) :
    pos < chooseChild endpos heap pos := by
  unfold chooseChild; split <;> omega

theorem chooseChild_lt (endpos : Nat) (heap : List PendingMessage) (pos : Nat)
    (h : 2 * pos + 1 < endpos) : chooseChild endpos heap pos < endpos := by
  unfold chooseChild; split <;> omega

theorem gi_set_self (l : List PendingMessage) (i : Nat) (x : PendingMessage)
    (h : i < l.length) : gi (l.set i x) i = x := by
  unfold gi
  rw [List.getD_eq_getElem?_getD, List.getElem?_set_self h]
  rfl

theorem gi_set_ne (l : List PendingMessage) (i j : Nat) (x : PendingMessage)
    (hne : i ≠ j) : gi (l.set i x) j = gi l j := by
  unfold gi
  rw [List.getD_eq_getElem?_getD, List.getElem?_set_ne hne, ← List.getD_eq_getElem?_getD]

theorem gi_mem (l : List PendingMessage) (i : Nat) (h : i < l.length) : gi l i ∈ l := by
  unfold gi
  rw [List.getD_eq_getElem?_getD, List.getElem?_eq_getElem h]
  exact List.getElem_mem h

theorem set_gi_self (l : List PendingMessage) (i : Nat) (h : i < l.length) :
    l.set i (gi l i) = l := by
  induction l generalizing i with
  | nil => simp at h
  | cons a t ih =>
    cases i with
    | zero => simp [gi]
    | succ n =>
      have hn : n < t.length := by simpa using h
      simp only [gi, List.getD_cons_succ, List.set_cons_succ]
      rw [show t.getD n default = gi t n from rfl, ih n hn]

theorem cons_add_singleton (u v : PendingMessage) (s : Multiset PendingMessage) :
    (u ::ₘ s) + {v} = v ::ₘ u ::ₘ s := by
  rw [add_comm, Multiset.singleton_add]

theorem coe_set_add (l : List PendingMessage) (i : Nat) (x : PendingMessage)
    (h : i < l.length) :
    ((l.set i x : List PendingMessage) : Multiset PendingMessage) + {gi l i} =
      (l : Multiset PendingMessage) + {x} := by
  induction l generalizing i with
  | nil => simp at h
  | cons a t ih =>
    cases i with
    | zero =>
      show ((x :: t : List PendingMessage) : Multiset PendingMessage) + {a} =
        ((a :: t : List PendingMessage) : Multiset PendingMessage) + {x}
      rw [← Multiset.cons_coe, ← Multiset.cons_coe, cons_add_singleton, cons_add_singleton,
        Multiset.cons_swap]
    | succ n =>
      have hn : n < t.length := by simpa using h
      show ((a :: t.set n x : List PendingMessage) : Multiset PendingMessage) + {gi t n} =
        ((a :: t : List PendingMessage) : Multiset PendingMessage) + {x}
      rw [← Multiset.cons_coe, ← Multiset.cons_coe, Multiset.cons_add, Multiset.cons_add,
        ih n hn]

/-- The multiset effect of moving the entry at c into a hole at pos and then
overwriting the stale copy at c: the same as writing directly into the hole. -/
theorem coe_set_set (heap : List PendingMessage) (pos c : Nat) (y : PendingMessage)
    (hpos : pos < heap.length) (hc : c < heap.length) (hne : pos ≠ c) :
    (((heap.set pos (gi heap c)).set c y : List PendingMessage) : Multiset PendingMessage) =
      ↑(heap.set pos y) := by
  have h1 := coe_set_add (heap.set pos (gi heap c)) c y (by rw [List.length_set]; exact hc)
  rw [gi_set_ne heap pos c (gi heap c) hne] at h1
  have h2 := coe_set_add heap pos (gi heap c) hpos
  have h3 := coe_set_add heap pos y hpos
  have key : (((heap.set pos (gi heap c)).set c y : List PendingMessage) :
        Multiset PendingMessage) + ({gi heap c} + {gi heap pos}) =
      (↑(heap.set pos y) : Multiset PendingMessage) + ({gi heap c} + {gi heap pos}) := by
    calc (((heap.set pos (gi heap c)).set c y : List PendingMessage) :
          Multiset PendingMessage) + ({gi heap c} + {gi heap pos})
        = ((↑((heap.set pos (gi heap c)).set c y) : Multiset PendingMessage) +
            {gi heap c}) + {gi heap pos} := by rw [add_assoc]
      _ = ((↑(heap.set pos (gi heap c)) : Multiset PendingMessage) + {y}) +
            {gi heap pos} := by rw [h1]
      _ = ((↑(heap.set pos (gi heap c)) : Multiset PendingMessage) + {gi heap pos}) +
            {y} := by rw [add_right_comm]
      _ = ((↑heap : Multiset PendingMessage) + {gi heap c}) + {y} := by rw [h2]
      _ = ((↑heap : Multiset PendingMessage) + {y}) + {gi heap c} := by rw [add_right_comm]
      _ = ((↑(heap.set pos y) : Multiset PendingMessage) + {gi heap pos}) +
            {gi heap c} := by rw [h3]
      _ = (↑(heap.set pos y) : Multiset PendingMessage) + ({gi heap c} + {gi heap pos}) := by
            rw [add_assoc, add_comm {gi heap pos} {gi heap c}]
  exact add_right_cancel key

theorem pmLt_false (a b : PendingMessage) (h : ¬ pmLt a b = true) :
    b.timestamp ≤ a.timestamp := by
  simp only [pmLt, decide_eq_true_eq] at h
  exact le_of_not_lt h

theorem pmLt_true (a b : PendingMessage) (h : pmLt a b = true) :
    a.timestamp < b.timestamp := by
  simpa only [pmLt, decide_eq_true_eq] using h

/-- In a heap, the root is a minimum. -/
theorem isHeap_root_le (l : List PendingMessage) (hl : IsHeap l) :
    ∀ i, i < l.length → (gi l 0).timestamp ≤ (gi l i).timestamp := by
  intro i
  induction i using Nat.strong_induction_on with
  | _ i ih =>
    intro hi
    rcases Nat.eq_zero_or_pos i with h0 | h0
    · subst h0; exact le_refl _
    · exact le_trans (ih ((i - 1) / 2) (by omega) (by omega)) (hl i h0 hi)

/-! ### siftdownLoop: multiset effect and heap-invariant preservation -/

theorem coe_siftdownLoop (newitem : PendingMessage) :
    ∀ (fuel : Nat) (heap : List PendingMessage) (pos : Nat), pos < heap.length →
      ((siftdownLoop newitem 0 fuel heap pos : List PendingMessage) : Multiset PendingMessage) =
        ↑(heap.set pos newitem) := by
  intro fuel
  induction fuel with
  | zero => intro heap pos hpos; rfl
  | succ fuel ih =>
    intro heap pos hpos
    rw [siftdownLoop]
    dsimp only
    split
    case isTrue hgt =>
      split
      case isTrue hlt =>
        rw [ih _ ((pos - 1) / 2) (by rw [List.length_set]; omega)]
        exact coe_set_set heap pos ((pos - 1) / 2) newitem hpos (by omega) (by omega)
      case isFalse hlt => rfl
    case isFalse hgt => rfl

theorem length_siftdownLoop (newitem : PendingMessage) (fuel pos : Nat)
    (heap : List PendingMessage) (hpos : pos < heap.length) :
    (siftdownLoop newitem 0 fuel heap pos).length = heap.length := by
  have h := congrArg Multiset.card (coe_siftdownLoop newitem fuel heap pos hpos)
  simpa using h

/-- Writing newitem into the root hole restores the heap. -/
theorem set_root_isHeap (newitem : PendingMessage) (heap : List PendingMessage)
    (inv : SiftDownInv heap newitem 0) : IsHeap (heap.set 0 newitem) := by
  have hpos := inv.pos_lt
  intro i hi hilen
  rw [List.length_set] at hilen
  by_cases hppar : (i - 1) / 2 = 0
  · rw [gi_set_ne heap 0 i _ (by omega), hppar, gi_set_self heap 0 _ hpos]
    exact inv.children i hi hilen hppar
  · rw [gi_set_ne heap 0 i _ (by omega), gi_set_ne heap 0 _ _ (by omega)]
    exact inv.edges i hi hilen (by omega) hppar

/-- Writing newitem into a non-root hole whose parent does not exceed it
restores the heap. -/
theorem set_stop_isHeap (newitem : PendingMessage) (heap : List PendingMessage)
    (pos : Nat) (hgt : 0 < pos) (inv : SiftDownInv heap newitem pos)
    (hts : (gi heap ((pos - 1) / 2)).timestamp ≤ newitem.timestamp) :
    IsHeap (heap.set pos newitem) := by
  have hpos := inv.pos_lt
  intro i hi hilen
  rw [List.length_set] at hilen
  by_cases hipos : i = pos
  · rw [hipos, gi_set_self heap pos _ hpos, gi_set_ne heap pos _ _ (by omega)]
    exact hts
  · by_cases hppar : (i - 1) / 2 = pos
    · rw [gi_set_ne heap pos i _ (by omega), hppar, gi_set_self heap pos _ hpos]
      exact inv.children i hi hilen hppar
    · rw [gi_set_ne heap pos i _ (by omega), gi_set_ne heap pos _ _ (by omega)]
      exact inv.edges i hi hilen hipos hppar

theorem siftdownLoop_isHeap (newitem : PendingMessage) :
    ∀ (fuel : Nat) (heap : List PendingMessage) (pos : Nat), pos ≤ fuel →
      SiftDownInv heap newitem pos → IsHeap (siftdownLoop newitem 0 fuel heap pos) := by
  intro fuel
  induction fuel with
  | zero =>
    intro heap pos hle inv
    have hp0 : pos = 0 := by omega
    subst hp0
    exact set_root_isHeap newitem heap inv
  | succ fuel ih =>
    intro heap pos hle inv
    have hpos := inv.pos_lt
    rw [siftdownLoop]
    dsimp only
    split
    case isTrue hgt =>
      split
      case isTrue hlt =>
        have hts := pmLt_true _ _ hlt
        rw [show heap.getD ((pos - 1) / 2) default = gi heap ((pos - 1) / 2) from rfl] at hts ⊢
        have hppos : (pos - 1) / 2 < heap.length := by omega
        refine ih _ ((pos - 1) / 2) (by omega) ?_
        constructor
        · rw [List.length_set]; omega
        · -- edges not touching the new hole
          intro i hi hilen hne hpar
          rw [List.length_set] at hilen
          by_cases hipos : i = pos
          · subst hipos; exact absurd rfl hpar
          · by_cases hppar : (i - 1) / 2 = pos
            · have hip : pos < i := by omega
              rw [gi_set_ne heap pos i _ (by omega), hppar,
                gi_set_self heap pos _ hpos]
              exact inv.gchild i hi hilen hppar hgt
            · rw [gi_set_ne heap pos i _ (by omega), gi_set_ne heap pos _ _ (by omega)]
              exact inv.edges i hi hilen hipos hppar
        · -- children of the new hole dominate newitem
          intro i hi hilen hpar
          rw [List.length_set] at hilen
          by_cases hipos : i = pos
          · rw [hipos, gi_set_self heap pos _ hpos]
            exact le_of_lt hts
          · rw [gi_set_ne heap pos i _ (by omega)]
            refine le_trans (le_of_lt hts) ?_
            have hE := inv.edges i hi hilen hipos (by omega)
            rw [hpar] at hE
            exact hE
        · -- children of the new hole dominate its parent
          intro i hi hilen hpar hppgt
          rw [List.length_set] at hilen
          have hgp : ((pos - 1) / 2 - 1) / 2 ≠ pos := by omega
          rw [gi_set_ne heap pos _ _ (by omega)]
          have hedge : (gi heap (((pos - 1) / 2 - 1) / 2)).timestamp ≤
              (gi heap ((pos - 1) / 2)).timestamp :=
            inv.edges ((pos - 1) / 2) hppgt hppos (by omega) (by omega)
          by_cases hipos : i = pos
          · rw [hipos, gi_set_self heap pos _ hpos]
            exact hedge
          · rw [gi_set_ne heap pos i _ (by omega)]
            have hE := inv.edges i hi hilen hipos (by omega)
            rw [hpar] at hE
            exact le_trans hedge hE
      case isFalse hlt =>
        have hts := pmLt_false _ _ hlt
        rw [show heap.getD ((pos - 1) / 2) default = gi heap ((pos - 1) / 2) from rfl] at hts
        exact set_stop_isHeap newitem heap pos hgt inv hts
    case isFalse hgt =>
      have hp0 : pos = 0 := by omega
      subst hp0
      exact set_root_isHeap newitem heap inv

/-! ### heappush preserves the heap -/

theorem gi_append_lt (l : List PendingMessage) (x : PendingMessage) (j : Nat)
    (hj : j < l.length) : gi (l ++ [x]) j = gi l j := by
  unfold gi
  rw [List.getD_eq_getElem?_getD, List.getElem?_append_left hj, ← List.getD_eq_getElem?_getD]

theorem gi_append_self (l : List PendingMessage) (x : PendingMessage) :
    gi (l ++ [x]) l.length = x := by
  unfold gi
  rw [List.getD_eq_getElem?_getD, List.getElem?_concat_length]
  rfl

theorem heappush_isHeap (heap : List PendingMessage) (x : PendingMessage)
    (h : IsHeap heap) : IsHeap (heappush heap x) := by
  apply siftdownLoop_isHeap x heap.length (heap ++ [x]) heap.length (le_refl _)
  constructor
  · simp
  · intro i hi hilen hne hpar
    simp only [List.length_append, List.length_cons, List.length_nil] at hilen
    have hi' : i < heap.length := by omega
    rw [gi_append_lt heap x i hi', gi_append_lt heap x _ (by omega)]
    exact h i hi hi'
  · intro i hi hilen hpar
    simp only [List.length_append, List.length_cons, List.length_nil] at hilen
    omega
  · intro i hi hilen hpar _
    simp only [List.length_append, List.length_cons, List.length_nil] at hilen
    omega

theorem coe_heappush (heap : List PendingMessage) (x : PendingMessage) :
    (↑(heappush heap x) : Multiset PendingMessage) = x ::ₘ ↑heap := by
  unfold heappush
  rw [coe_siftdownLoop x heap.length (heap ++ [x]) heap.length (by simp)]
  have hs := set_gi_self (heap ++ [x]) heap.length (by simp)
  rw [gi_append_self] at hs
  rw [hs, ← Multiset.coe_add]
  change (↑heap : Multiset PendingMessage) + {x} = x ::ₘ ↑heap
  rw [add_comm, Multiset.singleton_add]

/-! ### siftupLoop: invariant preservation, leaf landing, multiset effect -/

theorem chooseChild_parent (endpos : Nat) (heap : List PendingMessage) (pos : Nat) :
    (chooseChild endpos heap pos - 1) / 2 = pos := by
  unfold chooseChild; split <;> omega

theorem chooseChild_min (endpos : Nat) (heap : List PendingMessage) (pos : Nat)
    (hleft : 2 * pos + 1 < endpos) :
    ∀ i, 0 < i → i < endpos → (i - 1) / 2 = pos → i ≠ chooseChild endpos heap pos →
      (gi heap (chooseChild endpos heap pos)).timestamp ≤ (gi heap i).timestamp := by
  intro i hi hilen hpar hne
  have hcases : i = 2 * pos + 1 ∨ i = 2 * pos + 2 := by omega
  by_cases hcond : 2 * pos + 2 < endpos ∧
      ¬ pmLt (heap.getD (2 * pos + 1) default) (heap.getD (2 * pos + 2) default) = true
  · rw [chooseChild, if_pos hcond] at hne ⊢
    have hil : i = 2 * pos + 1 := by omega
    subst hil
    exact pmLt_false _ _ hcond.2
  · rw [chooseChild, if_neg hcond] at hne ⊢
    have hil : i = 2 * pos + 2 := by omega
    subst hil
    by_cases hp : pmLt (gi heap (2 * pos + 1)) (gi heap (2 * pos + 2)) = true
    · exact le_of_lt (pmLt_true _ _ hp)
    · exact absurd ⟨hilen, hp⟩ hcond

theorem siftupLoop_spec (fuel : Nat) : ∀ (endpos : Nat) (heap : List PendingMessage) (pos : Nat),
    endpos = heap.length → endpos - pos ≤ fuel → SiftUpInv heap pos →
    SiftUpInv (siftupLoop endpos fuel heap pos).1 (siftupLoop endpos fuel heap pos).2 ∧
    (siftupLoop endpos fuel heap pos).1.length = heap.length ∧
    ¬ 2 * (siftupLoop endpos fuel heap pos).2 + 1 < endpos ∧
    ∀ y, (((siftupLoop endpos fuel heap pos).1.set (siftupLoop endpos fuel heap pos).2 y :
        List PendingMessage) : Multiset PendingMessage) = ↑(heap.set pos y) := by
  induction fuel with
  | zero =>
    intro endpos heap pos hend hn inv
    exact absurd inv.pos_lt (by omega)
  | succ fuel ih =>
    intro endpos heap pos hend hn inv
    have hpos := inv.pos_lt
    rw [siftupLoop]
    dsimp only
    split
    case isFalse hleft =>
      exact ⟨inv, rfl, hleft, fun y => rfl⟩
    case isTrue hleft =>
      have hc := chooseChild_lt endpos heap pos hleft
      have hcpos := lt_chooseChild endpos heap pos
      have hcparent := chooseChild_parent endpos heap pos
      have hclen : chooseChild endpos heap pos < heap.length := by omega
      have hinv' : SiftUpInv (heap.set pos (heap.getD (chooseChild endpos heap pos) default))
          (chooseChild endpos heap pos) := by
        constructor
        · rw [List.length_set]; exact hclen
        · intro i hi hilen hne hpar
          rw [List.length_set] at hilen
          by_cases hipos : i = pos
          · subst hipos
            have hi0 : 0 < i := hi
            rw [gi_set_self heap i _ hpos, gi_set_ne heap i _ _ (by omega)]
            have hG := inv.gchild (chooseChild endpos heap i) (by omega) hclen hcparent hi0
            exact hG
          · by_cases hppar : (i - 1) / 2 = pos
            · rw [gi_set_ne heap pos i _ (by omega), hppar, gi_set_self heap pos _ hpos]
              exact chooseChild_min endpos heap pos hleft i hi (by omega) hppar hne
            · rw [gi_set_ne heap pos i _ (by omega), gi_set_ne heap pos _ _ (by omega)]
              exact inv.edges i hi hilen hipos hppar
        · intro i hi hilen hpar _
          rw [List.length_set] at hilen
          rw [hcparent, gi_set_self heap pos _ hpos,
            gi_set_ne heap pos i _ (by omega)]
          have hE := inv.edges i hi hilen (by omega) (by omega)
          rw [hpar] at hE
          exact hE
      have hmeas : endpos - chooseChild endpos heap pos ≤ fuel := by omega
      have hend' : endpos = (heap.set pos (heap.getD (chooseChild endpos heap pos) default)).length := by
        rw [List.length_set]; exact hend
      obtain ⟨rinv, rlen, rleaf, rcoe⟩ := ih endpos _ _ hend' hmeas hinv'
      refine ⟨rinv, ?_, rleaf, ?_⟩
      · rw [rlen, List.length_set]
      · intro y
        rw [rcoe y]
        exact coe_set_set heap pos (chooseChild endpos heap pos) y hpos hclen (by omega)

/-! ### heappop: returns the root, preserves the heap, removes one copy -/

theorem gi_dropLast (l : List PendingMessage) (j : Nat) (hj : j < l.length - 1) :
    gi l.dropLast j = gi l j := by
  unfold gi
  rw [List.getD_eq_getElem?_getD, List.getElem?_dropLast, if_pos hj,
    ← List.getD_eq_getElem?_getD]

/-- The _siftup phase of heappop: moving the detached last element into the
root hole yields a heap again, with the same entries. The hypothesis is the
heap property away from the root, which the overwritten root cannot affect. -/
theorem siftup_set0_spec (rest : List PendingMessage) (lastelt : PendingMessage)
    (hrpos : 0 < rest.length)
    (hedges : ∀ i, 0 < i → i < rest.length → (i - 1) / 2 ≠ 0 →
      (gi rest ((i - 1) / 2)).timestamp ≤ (gi rest i).timestamp) :
    IsHeap (siftup (rest.set 0 lastelt) 0) ∧
    (↑(siftup (rest.set 0 lastelt) 0) : Multiset PendingMessage) =
      ↑(rest.set 0 lastelt) := by
  have h1len : (rest.set 0 lastelt).length = rest.length := List.length_set ..
  have hinv : SiftUpInv (rest.set 0 lastelt) 0 := by
    constructor
    · omega
    · intro i hi hilen hne' hpar
      rw [h1len] at hilen
      rw [gi_set_ne rest 0 i _ (by omega), gi_set_ne rest 0 _ _ (by omega)]
      exact hedges i hi hilen hpar
    · intro i hi hilen hpar h0
      exact absurd h0 (by omega)
  obtain ⟨rinv, rlen, rleaf, rcoe⟩ :=
    siftupLoop_spec (rest.set 0 lastelt).length (rest.set 0 lastelt).length
      (rest.set 0 lastelt) 0 rfl (by omega) hinv
  have hsift : siftup (rest.set 0 lastelt) 0 =
      siftdownLoop (gi (rest.set 0 lastelt) 0) 0
        (siftupLoop (rest.set 0 lastelt).length (rest.set 0 lastelt).length
          (rest.set 0 lastelt) 0).2
        (siftupLoop (rest.set 0 lastelt).length (rest.set 0 lastelt).length
          (rest.set 0 lastelt) 0).1
        (siftupLoop (rest.set 0 lastelt).length (rest.set 0 lastelt).length
          (rest.set 0 lastelt) 0).2 := rfl
  have hdinv : SiftDownInv
      (siftupLoop (rest.set 0 lastelt).length (rest.set 0 lastelt).length
        (rest.set 0 lastelt) 0).1
      (gi (rest.set 0 lastelt) 0)
      (siftupLoop (rest.set 0 lastelt).length (rest.set 0 lastelt).length
        (rest.set 0 lastelt) 0).2 := by
    constructor
    · exact rinv.pos_lt
    · exact rinv.edges
    · intro i hi hilen hpar
      rw [rlen] at hilen
      omega
    · intro i hi hilen hpar _
      rw [rlen] at hilen
      omega
  constructor
  · rw [hsift]
    exact siftdownLoop_isHeap _ _ _ _ (le_refl _) hdinv
  · rw [hsift, coe_siftdownLoop _ _ _ _ rinv.pos_lt, rcoe (gi (rest.set 0 lastelt) 0),
      set_gi_self (rest.set 0 lastelt) 0 (by omega)]

theorem heappop_spec (heap : List PendingMessage) (hne : heap ≠ [])
    (hh : IsHeap heap) :
    ∃ h', heappop heap = some (gi heap 0, h') ∧ IsHeap h' ∧
      (↑heap : Multiset PendingMessage) = gi heap 0 ::ₘ ↑h' := by
  match heap with
  | [] => exact absurd rfl hne
  | [x] =>
    refine ⟨[], rfl, ?_, rfl⟩
    intro i hi hilen
    simp at hilen
  | x :: y :: ys =>
    have hlne : (x :: y :: ys : List PendingMessage) ≠ [] := by simp
    have hllen : 2 ≤ (x :: y :: ys : List PendingMessage).length := by
      simp
    have hrlen : ((x :: y :: ys : List PendingMessage).dropLast).length =
        (x :: y :: ys : List PendingMessage).length - 1 := List.length_dropLast ..
    have hrpos : 0 < ((x :: y :: ys : List PendingMessage).dropLast).length := by omega
    have hedges : ∀ i, 0 < i → i < ((x :: y :: ys : List PendingMessage).dropLast).length →
        (i - 1) / 2 ≠ 0 →
        (gi ((x :: y :: ys : List PendingMessage).dropLast) ((i - 1) / 2)).timestamp ≤
          (gi ((x :: y :: ys : List PendingMessage).dropLast) i).timestamp := by
      intro i hi hilen hpar
      rw [gi_dropLast _ i (by omega), gi_dropLast _ _ (by omega)]
      exact hh i hi (by omega)
    obtain ⟨hheap, hcoe⟩ := siftup_set0_spec ((x :: y :: ys : List PendingMessage).dropLast)
      ((x :: y :: ys : List PendingMessage).getLast (by simp)) hrpos hedges
    refine ⟨_, rfl, hheap, ?_⟩
    rw [hcoe]
    have hadd := coe_set_add ((x :: y :: ys : List PendingMessage).dropLast) 0
      ((x :: y :: ys : List PendingMessage).getLast (by simp)) hrpos
    have hgi0 : gi ((x :: y :: ys : List PendingMessage).dropLast) 0 = x := by
      rw [gi_dropLast _ 0 (by omega)]
      rfl
    rw [hgi0] at hadd
    have hsplit : (↑(x :: y :: ys : List PendingMessage) : Multiset PendingMessage) =
        ↑((x :: y :: ys : List PendingMessage).dropLast) +
          {(x :: y :: ys : List PendingMessage).getLast (by simp)} := by
      conv_lhs => rw [← List.dropLast_concat_getLast hlne]
      rw [← Multiset.coe_add]
      rfl
    have hgix : gi (x :: y :: ys : List PendingMessage) 0 = x := rfl
    rw [hgix, hsplit, ← hadd, add_comm, Multiset.singleton_add]

/-! ### The drain loop: releases exactly the ready messages, in timestamp order -/

theorem isHeap_head_le (l : List PendingMessage) (hh : IsHeap l) (p : PendingMessage)
    (hp : p ∈ l) : (gi l 0).timestamp ≤ p.timestamp := by
  obtain ⟨i, hi, rfl⟩ := List.mem_iff_getElem.mp hp
  have hgi : gi l i = l[i] := by
    unfold gi
    rw [List.getD_eq_getElem?_getD, List.getElem?_eq_getElem hi]
    rfl
  rw [← hgi]
  exact isHeap_root_le l hh i hi

theorem readyLoop_spec (bt ct : ℚ) :
    ∀ (fuel : Nat) (heap : List PendingMessage), heap.length ≤ fuel → IsHeap heap →
    (↑heap : Multiset PendingMessage) =
      ↑(readyLoop bt ct fuel heap).1 + ↑(readyLoop bt ct fuel heap).2 ∧
    List.Sorted tsLe (readyLoop bt ct fuel heap).1 ∧
    (∀ p ∈ (readyLoop bt ct fuel heap).1, bt ≤ ct - p.timestamp) ∧
    (∀ p ∈ (readyLoop bt ct fuel heap).2, ¬ bt ≤ ct - p.timestamp) ∧
    IsHeap (readyLoop bt ct fuel heap).2 := by
  intro fuel
  induction fuel with
  | zero =>
    intro heap hlen hh
    have hnil : heap = [] := List.length_eq_zero.mp (by omega)
    subst hnil
    exact ⟨rfl, List.sorted_nil, by simp [readyLoop], by simp [readyLoop], hh⟩
  | succ fuel ih =>
    intro heap hlen hh
    cases heap with
    | nil => exact ⟨rfl, List.sorted_nil, by simp [readyLoop], by simp [readyLoop], hh⟩
    | cons top rest =>
      by_cases hready : bt ≤ ct - top.timestamp
      · obtain ⟨h', hpop, hh', hcoe⟩ := heappop_spec (top :: rest) (by simp) hh
        have hgtop : gi (top :: rest) 0 = top := rfl
        rw [hgtop] at hpop hcoe
        have hlen' : h'.length = rest.length := by
          have hcard := congrArg Multiset.card hcoe
          simp only [Multiset.coe_card, Multiset.card_cons, List.length_cons] at hcard
          omega
        obtain ⟨ihcoe, ihsorted, ihready, ihnot, ihheap⟩ :=
          ih h' (by simp at hlen; omega) hh'
        have hred : readyLoop bt ct (fuel + 1) (top :: rest) =
            (top :: (readyLoop bt ct fuel h').1, (readyLoop bt ct fuel h').2) := by
          rw [readyLoop, if_pos hready, hpop]
        rw [hred]
        refine ⟨?_, ?_, ?_, ihnot, ihheap⟩
        · rw [hcoe, ihcoe, ← Multiset.cons_coe, Multiset.cons_add]
        · rw [List.sorted_cons]
          refine ⟨?_, ihsorted⟩
          intro b hb
          have hbh' : b ∈ h' := by
            have : b ∈ (↑h' : Multiset PendingMessage) := by
              rw [ihcoe]
              exact Multiset.mem_add.mpr (Or.inl (by exact_mod_cast hb))
            exact_mod_cast this
          have hbheap : b ∈ (top :: rest : List PendingMessage) := by
            have : b ∈ (↑(top :: rest) : Multiset PendingMessage) := by
              rw [hcoe]
              exact Multiset.mem_cons_of_mem (by exact_mod_cast hbh')
            exact_mod_cast this
          have := isHeap_head_le (top :: rest) hh b hbheap
          rw [hgtop] at this
          exact this
        · intro p hp
          rcases List.mem_cons.mp hp with rfl | hp'
          · exact hready
          · exact ihready p hp'
      · have hred : readyLoop bt ct (fuel + 1) (top :: rest) =
            ([], top :: rest) := by
          rw [readyLoop, if_neg hready]
        rw [hred]
        refine ⟨by simp, List.sorted_nil, by simp, ?_, hh⟩
        intro p hp hcontra
        have hle := isHeap_head_le (top :: rest) hh p hp
        have hgtop : gi (top :: rest) 0 = top := rfl
        rw [hgtop] at hle
        have : bt ≤ ct - top.timestamp := le_trans hcontra (by linarith)
        exact hready this

/-! ### The buffer map layer -/

theorem lookup_eq_none_of_not_mem_keys (l : List (String × List PendingMessage))
    (mc : String) (h : mc ∉ l.map Prod.fst) : l.lookup mc = none := by
  induction l with
  | nil => rfl
  | cons p rest ih =>
    simp only [List.map_cons, List.mem_cons] at h
    push_neg at h
    rw [List.lookup, beq_eq_false_iff_ne.mpr h.1]
    exact ih h.2

theorem heapAt_cons (k : String) (h : List PendingMessage)
    (rest : List (String × List PendingMessage)) (mc : String) :
    heapAt ((k, h) :: rest) mc = if mc = k then h else heapAt rest mc := by
  unfold heapAt
  by_cases hk : mc = k
  · rw [List.lookup, beq_iff_eq.mpr hk, if_pos hk]
    rfl
  · rw [List.lookup, beq_eq_false_iff_ne.mpr hk, if_neg hk]

theorem readyAt_cons (k : String) (h : List PendingMessage)
    (rest : List (String × List PendingMessage)) (mc : String) :
    readyAt ((k, h) :: rest) mc = if mc = k then h else readyAt rest mc := by
  unfold readyAt
  by_cases hk : mc = k
  · rw [List.lookup, beq_iff_eq.mpr hk, if_pos hk]
    rfl
  · rw [List.lookup, beq_eq_false_iff_ne.mpr hk, if_neg hk]

theorem heapAt_add_message (buf : Buffer) (mc' : String) (data : MessageData)
    (id : String) (mc : String) :
    heapAt (add_message buf mc' data id) mc =
      if mc' = mc then heappush (heapAt buf mc) ⟨data.timestamp.getD 0, data, id⟩
      else heapAt buf mc := by
  induction buf with
  | nil =>
    rw [add_message, heapAt_cons]
    by_cases hk : mc = mc'
    · rw [if_pos hk, if_pos hk.symm]
      rfl
    · rw [if_neg hk, if_neg (fun hh => hk hh.symm)]
  | cons p rest ih =>
    obtain ⟨k, h⟩ := p
    rw [add_message]
    by_cases hkm : k = mc'
    · rw [if_pos hkm, heapAt_cons, heapAt_cons]
      by_cases hmk : mc = k
      · rw [if_pos hmk, if_pos hmk, if_pos (by rw [hkm] at hmk; exact hmk.symm)]
      · rw [if_neg hmk, if_neg hmk, if_neg (by rw [hkm] at hmk; exact fun hh => hmk hh.symm)]
    · rw [if_neg hkm, heapAt_cons, heapAt_cons]
      by_cases hmk : mc = k
      · rw [if_pos hmk, if_pos hmk, if_neg (by rw [← hmk] at hkm; exact fun hh => hkm hh.symm)]
      · rw [if_neg hmk, if_neg hmk, ih]

theorem add_message_keys (buf : Buffer) (mc' : String) (data : MessageData)
    (id : String) :
    (add_message buf mc' data id).map Prod.fst =
      if mc' ∈ buf.map Prod.fst then buf.map Prod.fst else buf.map Prod.fst ++ [mc'] := by
  induction buf with
  | nil => simp [add_message]
  | cons p rest ih =>
    obtain ⟨k, h⟩ := p
    rw [add_message]
    by_cases hkm : k = mc'
    · rw [if_pos hkm]
      simp [hkm]
    · rw [if_neg hkm]
      simp only [List.map_cons, List.mem_cons]
      rw [ih]
      by_cases hmem : mc' ∈ rest.map Prod.fst
      · rw [if_pos hmem, if_pos (Or.inr hmem)]
      · rw [if_neg hmem, if_neg (by push_neg; exact ⟨fun hh => hkm hh.symm, hmem⟩)]
        simp

theorem add_message_keys_nodup (buf : Buffer) (mc' : String) (data : MessageData)
    (id : String) (hnd : (buf.map Prod.fst).Nodup) :
    ((add_message buf mc' data id).map Prod.fst).Nodup := by
  rw [add_message_keys]
  split
  · exact hnd
  case isFalse hmem =>
    rw [List.nodup_append]
    refine ⟨hnd, List.nodup_singleton _, ?_⟩
    intro x hx hx'
    simp only [List.mem_singleton] at hx'
    subst hx'
    exact hmem hx

theorem addAll_go_keys_nodup (adds : List AddOp) : ∀ (buf : Buffer),
    (buf.map Prod.fst).Nodup →
    ((adds.foldl (fun b a => add_message b a.meeting_code a.message_data a.message_id)
      buf).map Prod.fst).Nodup := by
  induction adds with
  | nil => intro buf hnd; exact hnd
  | cons a adds ih =>
    intro buf hnd
    exact ih _ (add_message_keys_nodup buf a.meeting_code a.message_data a.message_id hnd)

theorem addAll_keys_nodup (adds : List AddOp) :
    ((addAll adds).map Prod.fst).Nodup :=
  addAll_go_keys_nodup adds [] (by simp)

theorem addAll_go_heap (mc : String) : ∀ (adds : List AddOp) (buf : Buffer),
    IsHeap (heapAt buf mc) →
    IsHeap (heapAt (adds.foldl
      (fun b a => add_message b a.meeting_code a.message_data a.message_id) buf) mc) ∧
    (↑(heapAt (adds.foldl
        (fun b a => add_message b a.meeting_code a.message_data a.message_id) buf) mc) :
      Multiset PendingMessage) = ↑(heapAt buf mc) + ↑(msgsFor mc adds) := by
  intro adds
  induction adds with
  | nil =>
    intro buf hh
    exact ⟨hh, by simp [msgsFor]⟩
  | cons a adds ih =>
    intro buf hh
    rw [List.foldl_cons]
    have hstep := heapAt_add_message buf a.meeting_code a.message_data a.message_id mc
    by_cases hmc : a.meeting_code = mc
    · rw [if_pos hmc] at hstep
      have hh' : IsHeap (heapAt (add_message buf a.meeting_code a.message_data
          a.message_id) mc) := by
        rw [hstep]
        exact heappush_isHeap _ _ hh
      obtain ⟨ih1, ih2⟩ := ih _ hh'
      refine ⟨ih1, ?_⟩
      rw [ih2, hstep, coe_heappush]
      have hmsgs : msgsFor mc (a :: adds) = pmOf a :: msgsFor mc adds := by
        unfold msgsFor
        rw [List.filter_cons, if_pos (by simpa using hmc)]
        rfl
      rw [hmsgs, ← Multiset.cons_coe, Multiset.cons_add, add_comm (↑(heapAt buf mc))
        (pmOf a ::ₘ ↑(msgsFor mc adds)), Multiset.cons_add,
        add_comm (↑(msgsFor mc adds)) (↑(heapAt buf mc) : Multiset PendingMessage)]
      rfl
    · rw [if_neg hmc] at hstep
      have hh' : IsHeap (heapAt (add_message buf a.meeting_code a.message_data
          a.message_id) mc) := by
        rw [hstep]; exact hh
      obtain ⟨ih1, ih2⟩ := ih _ hh'
      refine ⟨ih1, ?_⟩
      rw [ih2, hstep]
      have hmsgs : msgsFor mc (a :: adds) = msgsFor mc adds := by
        unfold msgsFor
        rw [List.filter_cons, if_neg (by simpa using hmc)]
      rw [hmsgs]

theorem addAll_heap (adds : List AddOp) (mc : String) :
    IsHeap (heapAt (addAll adds) mc) ∧
    (↑(heapAt (addAll adds) mc) : Multiset PendingMessage) = ↑(msgsFor mc adds) := by
  have hbase : IsHeap (heapAt ([] : Buffer) mc) := by
    intro i hi hilen
    simp [heapAt] at hilen
  obtain ⟨h1, h2⟩ := addAll_go_heap mc adds [] hbase
  refine ⟨h1, ?_⟩
  rw [addAll] at *
  rw [h2]
  simp [heapAt]

theorem get_ready_keys_subset (bt ct : ℚ) : ∀ (buf : Buffer) (mc : String),
    mc ∈ ((get_ready_messages bt ct buf).1.map Prod.fst) → mc ∈ buf.map Prod.fst := by
  intro buf
  induction buf with
  | nil => intro mc hmem; simp [get_ready_messages] at hmem
  | cons p rest ih =>
    obtain ⟨k, h⟩ := p
    intro mc hmem
    rw [get_ready_messages] at hmem
    dsimp only at hmem
    by_cases hnil : h = []
    · rw [if_pos hnil] at hmem
      dsimp only at hmem
      exact List.mem_cons_of_mem _ (ih mc hmem)
    · rw [if_neg hnil] at hmem
      dsimp only at hmem
      by_cases hr : (readyLoop bt ct h.length h).1 = []
      · rw [if_pos hr] at hmem
        exact List.mem_cons_of_mem _ (ih mc hmem)
      · rw [if_neg hr] at hmem
        simp only [List.map_cons, List.mem_cons] at hmem
        rcases hmem with h1 | h2
        · simp only [List.map_cons, List.mem_cons]
          exact Or.inl h1
        · exact List.mem_cons_of_mem _ (ih mc h2)

theorem get_ready_lookup (bt ct : ℚ) : ∀ (buf : Buffer) (mc : String),
    (buf.map Prod.fst).Nodup →
    readyAt (get_ready_messages bt ct buf).1 mc =
      (readyLoop bt ct (heapAt buf mc).length (heapAt buf mc)).1 ∧
    heapAt (get_ready_messages bt ct buf).2 mc =
      (readyLoop bt ct (heapAt buf mc).length (heapAt buf mc)).2 := by
  intro buf
  induction buf with
  | nil => intro mc _; exact ⟨rfl, rfl⟩
  | cons p rest ih =>
    obtain ⟨k, h⟩ := p
    intro mc hnd
    simp only [List.map_cons, List.nodup_cons] at hnd
    obtain ⟨hknot, hndrest⟩ := hnd
    obtain ⟨ih1, ih2⟩ := ih mc hndrest
    rw [get_ready_messages]
    dsimp only
    by_cases hnil : h = []
    · rw [if_pos hnil]
      dsimp only
      by_cases hmk : mc = k
      · subst hmk
        have hnot : mc ∉ (get_ready_messages bt ct rest).1.map Prod.fst := fun hmem =>
          hknot (get_ready_keys_subset bt ct rest mc hmem)
        constructor
        · rw [heapAt_cons, if_pos rfl, hnil]
          unfold readyAt
          rw [lookup_eq_none_of_not_mem_keys _ _ hnot]
          rfl
        · rw [heapAt_cons, if_pos rfl, heapAt_cons, if_pos rfl, hnil]
          rfl
      · constructor
        · rw [heapAt_cons, if_neg hmk]
          exact ih1
        · rw [heapAt_cons, if_neg hmk, heapAt_cons, if_neg hmk]
          exact ih2
    · rw [if_neg hnil]
      dsimp only
      by_cases hmk : mc = k
      · subst hmk
        have hnot : mc ∉ (get_ready_messages bt ct rest).1.map Prod.fst := fun hmem =>
          hknot (get_ready_keys_subset bt ct rest mc hmem)
        constructor
        · rw [heapAt_cons, if_pos rfl]
          by_cases hr : (readyLoop bt ct h.length h).1 = []
          · rw [if_pos hr, hr]
            unfold readyAt
            rw [lookup_eq_none_of_not_mem_keys _ _ hnot]
            rfl
          · rw [if_neg hr, readyAt_cons, if_pos rfl]
        · rw [heapAt_cons, if_pos rfl, heapAt_cons, if_pos rfl]
      · constructor
        · rw [heapAt_cons, if_neg hmk]
          split
          · exact ih1
          · rw [readyAt_cons, if_neg hmk]
            exact ih1
        · rw [heapAt_cons, if_neg hmk, heapAt_cons, if_neg hmk]
          exact ih2

/-- Combined drain specification at the MessageBuffer level: for any sequence
of adds, the released list of a meeting is a permutation of exactly its ready
messages and is ordered by timestamp. -/
theorem drain_spec (window now : ℚ) (adds : List AddOp) (mc : String) :
    (readyAt (get_ready_messages window now (addAll adds)).1 mc).Perm
      ((msgsFor mc adds).filter (isReady window now)) ∧
    List.Sorted tsLe (readyAt (get_ready_messages window now (addAll adds)).1 mc) := by
  obtain ⟨hh, hcoe⟩ := addAll_heap adds mc
  obtain ⟨hl1, _⟩ := get_ready_lookup window now (addAll adds) mc (addAll_keys_nodup adds)
  obtain ⟨rcoe, rsorted, rready, rnot, _⟩ :=
    readyLoop_spec window now (heapAt (addAll adds) mc).length (heapAt (addAll adds) mc)
      (le_refl _) hh
  rw [hl1]
  refine ⟨?_, rsorted⟩
  have hperm : ((readyLoop window now (heapAt (addAll adds) mc).length
      (heapAt (addAll adds) mc)).1 ++
      (readyLoop window now (heapAt (addAll adds) mc).length
        (heapAt (addAll adds) mc)).2).Perm (msgsFor mc adds) := by
    rw [← Multiset.coe_eq_coe, ← Multiset.coe_add, ← rcoe, hcoe]
  have hfil := hperm.filter (isReady window now)
  rw [List.filter_append] at hfil
  rw [List.filter_eq_self.mpr (fun a ha => by
      simpa [isReady] using rready a ha),
    List.filter_eq_nil_iff.mpr (fun a ha hcon => rnot a ha (by
      simpa [isReady] using hcon)),
    List.append_nil] at hfil
  exact hfil

/-! ### Claim theorems -/

theorem allocRun_getD (st : CounterState) : ∀ (n i : Nat), i < n →
    (allocRun st n).getD i 0 = counterRead st + 1 + i := by
  intro n
  induction n generalizing st with
  | zero => intro i hi; omega
  | succ n ih =>
    intro i hi
    rw [allocRun]
    cases i with
    | zero => simp [get_next_sequence]
    | succ i =>
      rw [List.getD_cons_succ, ih _ i (by omega)]
      simp only [get_next_sequence, counterRead, Option.getD_some]
      push_cast
      ring

/-- C1: get_next_sequence reads the current counter value (0 when the document
is absent), writes value+1 and returns value+1; consequently the values
returned over any succession of allocations for the same meeting strictly
increase. -/
theorem c1_sequence_allocator :
    (∀ st : CounterState, get_next_sequence st =
      (counterRead st + 1, some (some (counterRead st + 1)))) ∧
    counterRead none = 0 ∧
    (∀ (st : CounterState) (n i j : Nat), i < j → j < n →
      (allocRun st n).getD i 0 < (allocRun st n).getD j 0) := by
  refine ⟨fun st => rfl, rfl, ?_⟩
  intro st n i j hij hjn
  rw [allocRun_getD st n i (by omega), allocRun_getD st n j hjn]
  have : (i : ℤ) < (j : ℤ) := by exact_mod_cast hij
  omega

theorem c1_sequence_allocator_witness :
    0 < 2 ∧ 2 < 3 ∧ (allocRun none 3).getD 0 0 < (allocRun none 3).getD 2 0 :=
  ⟨by decide, by decide, c1_sequence_allocator.2.2 none 3 0 2 (by decide) (by decide)⟩

attribute [local semireducible] Rat.sub in
/-- C2: for every per-meeting buffer state built by adds and every drain time,
get_ready_messages releases exactly the fragments whose age reaches the window,
in ascending timestamp order; in particular timestamps [5, 2, 8] added in that
order with window 1 are released as [2, 5, 8] once all are old enough. -/
theorem c2_reorder_drain :
    (∀ (window now : ℚ) (adds : List AddOp) (mc : String),
      (readyAt (get_ready_messages window now (addAll adds)).1 mc).Perm
        ((msgsFor mc adds).filter (isReady window now)) ∧
      List.Sorted tsLe (readyAt (get_ready_messages window now (addAll adds)).1 mc)) ∧
    (readyAt (get_ready_messages 1 9 (addAll
      [⟨"m", ⟨some 5, "hello", "en"⟩, "s5"⟩, ⟨"m", ⟨some 2, "there", "en"⟩, "s2"⟩,
       ⟨"m", ⟨some 8, "friend", "en"⟩, "s8"⟩])).1 "m").map PendingMessage.timestamp
      = [2, 5, 8] :=
  ⟨drain_spec, by decide⟩

attribute [local semireducible] Rat.sub in
/-- C3 counterexample: four messages with timestamps 2, 1, 1, 0 arriving in
ids a, b, c, d; the drain releases c before b although b arrived first and both
carry timestamp 1 — heapq pops equal keys out of arrival order, so the claimed
stable arrival-order tie-break is false at this input. -/
theorem c3_tie_counterexample :
    (readyAt (get_ready_messages 1 10 (addAll
      [⟨"m", ⟨some 2, "", ""⟩, "a"⟩, ⟨"m", ⟨some 1, "", ""⟩, "b"⟩,
       ⟨"m", ⟨some 1, "", ""⟩, "c"⟩, ⟨"m", ⟨some 0, "", ""⟩, "d"⟩])).1 "m").map
      PendingMessage.message_id = ["d", "c", "b", "a"] ∧
    List.indexOf "c" ((readyAt (get_ready_messages 1 10 (addAll
      [⟨"m", ⟨some 2, "", ""⟩, "a"⟩, ⟨"m", ⟨some 1, "", ""⟩, "b"⟩,
       ⟨"m", ⟨some 1, "", ""⟩, "c"⟩, ⟨"m", ⟨some 0, "", ""⟩, "d"⟩])).1 "m").map
      PendingMessage.message_id) <
    List.indexOf "b" ((readyAt (get_ready_messages 1 10 (addAll
      [⟨"m", ⟨some 2, "", ""⟩, "a"⟩, ⟨"m", ⟨some 1, "", ""⟩, "b"⟩,
       ⟨"m", ⟨some 1, "", ""⟩, "c"⟩, ⟨"m", ⟨some 0, "", ""⟩, "d"⟩])).1 "m").map
      PendingMessage.message_id) := by
  exact ⟨by decide, by decide⟩

/-- C3 amended: two fragments with identical timestamps that are both ready are
released by the same drain, inside a timestamp-sorted output (so they are
released at adjacent timestamp positions); the order among them is the
deterministic heap pop order, not necessarily arrival order. -/
theorem c3_tie_amended (window now : ℚ) (adds : List AddOp) (mc : String)
    (p q : PendingMessage) (hp : p ∈ msgsFor mc adds) (hq : q ∈ msgsFor mc adds)
    (hts : p.timestamp = q.timestamp) (hready : window ≤ now - p.timestamp) :
    p ∈ readyAt (get_ready_messages window now (addAll adds)).1 mc ∧
    q ∈ readyAt (get_ready_messages window now (addAll adds)).1 mc ∧
    List.Sorted tsLe (readyAt (get_ready_messages window now (addAll adds)).1 mc) := by
  obtain ⟨hperm, hsorted⟩ := drain_spec window now adds mc
  refine ⟨?_, ?_, hsorted⟩
  · refine hperm.mem_iff.mpr (List.mem_filter.mpr ⟨hp, ?_⟩)
    simpa [isReady] using hready
  · refine hperm.mem_iff.mpr (List.mem_filter.mpr ⟨hq, ?_⟩)
    rw [hts] at hready
    simpa [isReady] using hready

attribute [local semireducible] Rat.sub in
theorem c3_tie_amended_witness :
    (⟨1, ⟨some 1, "", ""⟩, "b"⟩ : PendingMessage) ∈
      readyAt (get_ready_messages 1 10 (addAll
        [⟨"m", ⟨some 2, "", ""⟩, "a"⟩, ⟨"m", ⟨some 1, "", ""⟩, "b"⟩,
         ⟨"m", ⟨some 1, "", ""⟩, "c"⟩, ⟨"m", ⟨some 0, "", ""⟩, "d"⟩])).1 "m" ∧
    (⟨1, ⟨some 1, "", ""⟩, "c"⟩ : PendingMessage) ∈
      readyAt (get_ready_messages 1 10 (addAll
        [⟨"m", ⟨some 2, "", ""⟩, "a"⟩, ⟨"m", ⟨some 1, "", ""⟩, "b"⟩,
         ⟨"m", ⟨some 1, "", ""⟩, "c"⟩, ⟨"m", ⟨some 0, "", ""⟩, "d"⟩])).1 "m" :=
  ⟨(c3_tie_amended 1 10
      [⟨"m", ⟨some 2, "", ""⟩, "a"⟩, ⟨"m", ⟨some 1, "", ""⟩, "b"⟩,
       ⟨"m", ⟨some 1, "", ""⟩, "c"⟩, ⟨"m", ⟨some 0, "", ""⟩, "d"⟩] "m"
      ⟨1, ⟨some 1, "", ""⟩, "b"⟩ ⟨1, ⟨some 1, "", ""⟩, "c"⟩
      (by decide) (by decide) (by decide) (by decide)).1,
   (c3_tie_amended 1 10
      [⟨"m", ⟨some 2, "", ""⟩, "a"⟩, ⟨"m", ⟨some 1, "", ""⟩, "b"⟩,
       ⟨"m", ⟨some 1, "", ""⟩, "c"⟩, ⟨"m", ⟨some 0, "", ""⟩, "d"⟩] "m"
      ⟨1, ⟨some 1, "", ""⟩, "b"⟩ ⟨1, ⟨some 1, "", ""⟩, "c"⟩
      (by decide) (by decide) (by decide) (by decide)).2.1⟩

/-- C10: a message added without a timestamp field is recorded with timestamp
0, is released by any drain whose time has reached the window, and precedes
every positively-timestamped fragment of the same meeting in the released
order. -/
theorem c10_default_timestamp (window now : ℚ) (adds : List AddOp) (mc : String)
    (a : AddOp) (ha : a ∈ adds) (hmc : a.meeting_code = mc)
    (hts : a.message_data.timestamp = none) (hnow : window ≤ now) :
    (pmOf a).timestamp = 0 ∧
    pmOf a ∈ readyAt (get_ready_messages window now (addAll adds)).1 mc ∧
    (∀ (i j : Nat) (hi : i < (readyAt (get_ready_messages window now
          (addAll adds)).1 mc).length)
      (hj : j < (readyAt (get_ready_messages window now (addAll adds)).1 mc).length),
      (readyAt (get_ready_messages window now (addAll adds)).1 mc).get ⟨i, hi⟩ = pmOf a →
      0 < ((readyAt (get_ready_messages window now (addAll adds)).1 mc).get
        ⟨j, hj⟩).timestamp → i < j) := by
  have h0 : (pmOf a).timestamp = 0 := by simp [pmOf, hts]
  obtain ⟨hperm, hsorted⟩ := drain_spec window now adds mc
  have hmem : pmOf a ∈ msgsFor mc adds := by
    unfold msgsFor
    exact List.mem_map_of_mem pmOf (List.mem_filter.mpr ⟨ha, by simpa using hmc⟩)
  have hready : isReady window now (pmOf a) = true := by
    simp only [isReady, h0, decide_eq_true_eq, sub_zero]
    exact hnow
  have hin : pmOf a ∈ readyAt (get_ready_messages window now (addAll adds)).1 mc :=
    hperm.mem_iff.mpr (List.mem_filter.mpr ⟨hmem, hready⟩)
  refine ⟨h0, hin, ?_⟩
  intro i j hi hj hieq hjpos
  rcases Nat.lt_trichotomy i j with h | h | h
  · exact h
  · subst h
    rw [hieq, h0] at hjpos
    exact absurd hjpos (lt_irrefl 0)
  · have hrel := List.Sorted.rel_get_of_lt hsorted (show (⟨j, hj⟩ : Fin _) < ⟨i, hi⟩ from h)
    rw [hieq] at hrel
    unfold tsLe at hrel
    rw [h0] at hrel
    exact absurd (lt_of_lt_of_le hjpos hrel) (lt_irrefl 0)

attribute [local semireducible] Rat.sub in
theorem c10_default_timestamp_witness :
    (⟨"m", ⟨none, "hola", "es"⟩, "x"⟩ : AddOp) ∈
      [(⟨"m", ⟨none, "hola", "es"⟩, "x"⟩ : AddOp), ⟨"m", ⟨some 3, "hey", "es"⟩, "y"⟩] ∧
    (pmOf ⟨"m", ⟨none, "hola", "es"⟩, "x"⟩).timestamp = 0 ∧
    pmOf ⟨"m", ⟨none, "hola", "es"⟩, "x"⟩ ∈
      readyAt (get_ready_messages 1 4 (addAll
        [⟨"m", ⟨none, "hola", "es"⟩, "x"⟩, ⟨"m", ⟨some 3, "hey", "es"⟩, "y"⟩])).1 "m" :=
  ⟨by decide,
    (c10_default_timestamp 1 4
      [⟨"m", ⟨none, "hola", "es"⟩, "x"⟩, ⟨"m", ⟨some 3, "hey", "es"⟩, "y"⟩] "m"
      ⟨"m", ⟨none, "hola", "es"⟩, "x"⟩ (by decide) (by decide) (by decide) (by decide)).1,
    (c10_default_timestamp 1 4
      [⟨"m", ⟨none, "hola", "es"⟩, "x"⟩, ⟨"m", ⟨some 3, "hey", "es"⟩, "y"⟩] "m"
      ⟨"m", ⟨none, "hola", "es"⟩, "x"⟩ (by decide) (by decide) (by decide) (by decide)).2.1⟩

/-- C5: a registration request (no sequence parameter) returns exactly one
sentinel record, marked empty, whose sequence is the meeting's counter value
at call time, with 0 for an absent counter document; no historical record is
returned. -/
theorem c5_registration :
    (∀ (counter : CounterState) (storeAt : Nat → List TranslationDoc) (lang : String),
      get_translations counter storeAt lang none =
        [⟨"registration", "registration", "", "", lang, counterRead counter, true, true⟩] ∧
      ∀ r ∈ get_translations counter storeAt lang none,
        r.empty = true ∧ r.sequence = counterRead counter) ∧
    counterRead none = 0 := by
  refine ⟨fun counter storeAt lang => ⟨rfl, ?_⟩, rfl⟩
  intro r hr
  have hr' : r = ⟨"registration", "registration", "", "", lang,
      counterRead counter, true, true⟩ := List.mem_singleton.mp hr
  subst hr'
  exact ⟨rfl, rfl⟩

theorem pollResults_empty (storeAt : Nat → List TranslationDoc) (lang : String)
    (c : ℤ) (hempty : ∀ t, resultsOf (storeAt t) lang c = []) :
    ∀ (fuel k : Nat), pollResults storeAt lang c k fuel = [] := by
  intro fuel
  induction fuel with
  | zero => intro k; rfl
  | succ fuel ih =>
    intro k
    rw [pollResults, hempty k, ih (k + 1)]
    rfl

/-- C6: an incremental fetch that finds no qualifying record at any poll of the
bounded wait returns the empty sentinel carrying the supplied cursor unchanged,
and a repeated fetch under the same conditions returns the identical sentinel;
no store state is consumed (the endpoint only reads). -/
theorem c6_timeout_idempotent (counter counter' : CounterState)
    (storeAt storeAt' : Nat → List TranslationDoc) (lang : String) (c : ℤ)
    (h1 : ∀ t, resultsOf (storeAt t) lang c = [])
    (h2 : ∀ t, resultsOf (storeAt' t) lang c = []) :
    get_translations counter storeAt lang (some c) =
      [⟨"empty_" ++ toString c, "empty_" ++ toString c, "", "", lang, c, true, true⟩] ∧
    get_translations counter' storeAt' lang (some c) =
      get_translations counter storeAt lang (some c) := by
  have key : ∀ (ctr : CounterState) (s : Nat → List TranslationDoc),
      (∀ t, resultsOf (s t) lang c = []) →
      get_translations ctr s lang (some c) =
        [⟨"empty_" ++ toString c, "empty_" ++ toString c, "", "", lang, c, true, true⟩] := by
    intro ctr s hs
    simp only [get_translations]
    rw [pollResults_empty s lang c hs 15 0]
    rfl
  rw [key counter storeAt h1, key counter' storeAt' h2]
  exact ⟨rfl, rfl⟩

theorem c6_timeout_idempotent_witness :
    (∀ t : Nat, resultsOf (((fun _ => []) : Nat → List TranslationDoc) t) "es" 0 = []) ∧
    get_translations none (fun _ => []) "es" (some 0) =
      [⟨"empty_" ++ toString (0 : ℤ), "empty_" ++ toString (0 : ℤ), "", "", "es", 0,
        true, true⟩] :=
  ⟨fun _ => rfl,
    (c6_timeout_idempotent none none (fun _ => []) (fun _ => []) "es" 0
      (fun _ => rfl) (fun _ => rfl)).1⟩

theorem resultsOf_gt (store : List TranslationDoc) (lang : String) (c : ℤ) :
    ∀ r ∈ resultsOf store lang c, c < r.sequence := by
  intro r hr
  unfold resultsOf at hr
  have hr' := (List.perm_insertionSort seqLe _).mem_iff.mp hr
  obtain ⟨d, hd, hfd⟩ := List.mem_filterMap.mp hr'
  obtain ⟨hdmem, hdq⟩ := List.mem_filter.mp hd
  cases hseq : d.sequence with
  | none =>
    rw [hseq] at hfd
    exact absurd hfd (by simp)
  | some sVal =>
    rw [hseq] at hfd
    have hrec := Option.some.inj hfd
    unfold docQualifies at hdq
    rw [hseq] at hdq
    simp only [Bool.and_eq_true, decide_eq_true_eq] at hdq
    rw [← hrec]
    exact hdq.2

theorem sorted_getLast_max : ∀ (l : List ResultRec), List.Sorted seqLe l →
    ∀ (hne : l ≠ []) (r : ResultRec), r ∈ l →
      r.sequence ≤ (l.getLast hne).sequence := by
  intro l
  induction l with
  | nil => intro _ hne; exact absurd rfl hne
  | cons a t ih =>
    intro hs hne r hr
    rw [List.sorted_cons] at hs
    obtain ⟨ha, ht⟩ := hs
    cases t with
    | nil =>
      have hra : r = a := by simpa using hr
      subst hra
      exact le_refl _
    | cons b t' =>
      rw [List.getLast_cons (by simp)]
      rcases List.mem_cons.mp hr with rfl | hr'
      · exact ha _ (List.getLast_mem (by simp))
      · exact ih ht (by simp) r hr'

theorem pollResults_const (store : List TranslationDoc) (lang : String) (c : ℤ)
    (hne : resultsOf store lang c ≠ []) :
    pollResults (fun _ => store) lang c 0 15 = resultsOf store lang c := by
  rw [pollResults]
  rw [if_neg hne]

/-- C4 amended: an incremental fetch whose query finds qualifying records
returns one concatenated record: the qualifying rows all carry sequence greater
than the cursor and come sorted ascending; the returned text is the
space-separated join of the whitespace-stripped texts in that order, and the
returned cursor is the maximum (last) sequence among them. -/
theorem c4_incremental_amended (counter : CounterState) (store : List TranslationDoc)
    (lang : String) (c : ℤ) (hne : resultsOf store lang c ≠ []) :
    (∀ r ∈ resultsOf store lang c, c < r.sequence) ∧
    List.Sorted seqLe (resultsOf store lang c) ∧
    ∃ rec : RespRecord,
      get_translations counter (fun _ => store) lang (some c) = [rec] ∧
      rec.translatedText = String.intercalate " "
        ((resultsOf store lang c).map fun r => pyStrip r.translatedText) ∧
      rec.sequence = ((resultsOf store lang c).getLast hne).sequence ∧
      (∀ r ∈ resultsOf store lang c, r.sequence ≤ rec.sequence) ∧
      rec.empty = false ∧ rec.targetLanguage = lang := by
  have hsorted : List.Sorted seqLe (resultsOf store lang c) := by
    unfold resultsOf
    exact List.sorted_insertionSort seqLe _
  have hgl : (resultsOf store lang c).getLastD default =
      (resultsOf store lang c).getLast hne := by
    rw [List.getLastD_eq_getLast?, List.getLast?_eq_getLast _ hne]
    rfl
  have heq : get_translations counter (fun _ => store) lang (some c) =
      [⟨"concat_" ++ toString (((resultsOf store lang c).getLastD default).sequence),
        "concat_" ++ toString (((resultsOf store lang c).getLastD default).sequence),
        String.intercalate " " ((resultsOf store lang c).map fun r =>
          pyStrip r.translatedText),
        ((resultsOf store lang c).headD default).sourceLanguage, lang,
        ((resultsOf store lang c).getLastD default).sequence, true, false⟩] := by
    simp only [get_translations]
    rw [pollResults_const store lang c hne, if_neg hne, hsorted.insertionSort_eq]
  refine ⟨resultsOf_gt store lang c, hsorted, _, heq, rfl, ?_, ?_, rfl, rfl⟩
  · dsimp only
    rw [hgl]
  · intro r hr
    dsimp only
    rw [hgl]
    exact sorted_getLast_max _ hsorted hne r hr

/-- C4 counterexample: with a single qualifying record whose stored text is
"hola " (trailing space), the endpoint returns "hola": each text is stripped
before joining, so the returned text differs from the space-joined texts of
the qualifying records, refuting the claim as stated. -/
theorem c4_strip_counterexample :
    get_translations none
      (fun _ => [⟨"hello", some "en", "es", some "hola ", some 1, 1, true⟩])
      "es" (some 0) =
      [⟨"concat_1", "concat_1", "hola", "en", "es", 1, true, false⟩] ∧
    String.intercalate " "
      ((resultsOf [⟨"hello", some "en", "es", some "hola ", some 1, 1, true⟩] "es" 0).map
        (fun r => r.translatedText)) = "hola " ∧
    ("hola" : String) ≠ "hola " := by
  exact ⟨by decide, by decide, by decide⟩

theorem c4_incremental_amended_witness :
    resultsOf [⟨"hello", some "en", "es", some "hola ", some 1, 1, true⟩] "es" 0 ≠ [] ∧
    (∀ r ∈ resultsOf [⟨"hello", some "en", "es", some "hola ", some 1, 1, true⟩] "es" 0,
      (0 : ℤ) < r.sequence) ∧
    List.Sorted seqLe (resultsOf
      [⟨"hello", some "en", "es", some "hola ", some 1, 1, true⟩] "es" 0) :=
  ⟨by decide,
    (c4_incremental_amended none
      [⟨"hello", some "en", "es", some "hola ", some 1, 1, true⟩] "es" 0 (by decide)).1,
    (c4_incremental_amended none
      [⟨"hello", some "en", "es", some "hola ", some 1, 1, true⟩] "es" 0 (by decide)).2.1⟩

theorem fanoutLoop_no_source (translate : Translator) (text source : String)
    (conf : ℚ) (seq : ℤ) : ∀ (targets : List String),
    (∀ d ∈ (fanoutLoop translate text source conf seq targets).1,
      d.targetLanguage ≠ source) ∧
    (∀ call ∈ (fanoutLoop translate text source conf seq targets).2,
      call.target ≠ source) := by
  intro targets
  induction targets with
  | nil => exact ⟨fun d hd => absurd hd (by simp [fanoutLoop]), fun c hc =>
      absurd hc (by simp [fanoutLoop])⟩
  | cons tl rest ih =>
    rw [fanoutLoop]
    by_cases hsrc : tl = source
    · rw [if_pos hsrc]
      exact ih
    · rw [if_neg hsrc]
      cases htr : translate text tl (baseLang source) with
      | some t =>
        refine ⟨?_, ?_⟩
        · intro d hd
          rcases List.mem_cons.mp hd with rfl | hd'
          · exact hsrc
          · exact ih.1 d hd'
        · intro call hc
          rcases List.mem_cons.mp hc with rfl | hc'
          · exact hsrc
          · exact ih.2 call hc'
      | none =>
        refine ⟨ih.1, ?_⟩
        intro call hc
        rcases List.mem_cons.mp hc with rfl | hc'
        · exact hsrc
        · exact ih.2 call hc'

/-- C7 counterexample: process_audio's per-language loop skips a target equal
to the source language entirely, so when the source language is in the target
set no record at all is produced under it (the other targets still get their
records): the claimed record carrying the original text does not exist. -/
theorem c7_counterexample :
    (update_in_transaction (fun t tl _ => some (tl ++ ":" ++ t)) ["en", "es"]
      "hello" "en" 1 none).1.filter (fun d => d.targetLanguage == "en") = [] ∧
    ("en" : String) ∈ ["en", "es"] ∧
    (update_in_transaction (fun t tl _ => some (tl ++ ":" ++ t)) ["en", "es"]
      "hello" "en" 1 none).1.map TranslationDoc.targetLanguage = ["es"] := by
  exact ⟨by decide, by decide, by decide⟩

/-- C7 amended: in the store-backed fanout (process_audio) a target equal to
the source language is skipped entirely — no record and no translate call are
produced for it; in the worker fanout (translate_and_publish) a target equal
to the base source-language code is published with the fragment's original
text and no translate call. -/
theorem c7_source_language_amended :
    (∀ (translate : Translator) (targets : List String) (text source : String)
      (conf : ℚ) (st : CounterState),
      (∀ d ∈ (update_in_transaction translate targets text source conf st).1,
        d.targetLanguage ≠ source) ∧
      (∀ call ∈ (update_in_transaction translate targets text source conf st).2.1,
        call.target ≠ source)) ∧
    (∀ (translate : Translator) (text source target : String) (ts : Option ℚ),
      target = baseLang source →
      translate_and_publish translate text source target ts =
        (some ⟨text, source, ts⟩, [])) := by
  constructor
  · intro translate targets text source conf st
    exact fanoutLoop_no_source translate text source conf
      (get_next_sequence st).1 targets
  · intro translate text source target ts htgt
    unfold translate_and_publish
    rw [if_pos htgt]

theorem c7_source_language_amended_witness :
    ("en" : String) = baseLang "en-US" ∧
    translate_and_publish (fun t tl _ => some (tl ++ ":" ++ t)) "hello" "en-US" "en"
      (some 5) = (some ⟨"hello", "en-US", some 5⟩, []) :=
  ⟨by decide,
    c7_source_language_amended.2 (fun t tl _ => some (tl ++ ":" ++ t)) "hello" "en-US"
      "en" (some 5) (by decide)⟩

theorem fanoutLoop_isolation (text source : String) (conf : ℚ) (seq : ℤ)
    (X : String) (tr tr' : Translator)
    (hagree : ∀ txt tl src, tl ≠ X → tr txt tl src = tr' txt tl src)
    (hfail : tr text X (baseLang source) = none) : ∀ (targets : List String),
    (fanoutLoop tr text source conf seq targets).1 =
      (fanoutLoop tr' text source conf seq targets).1.filter
        (fun d => !(d.targetLanguage == X)) := by
  intro targets
  induction targets with
  | nil => rfl
  | cons tl rest ih =>
    rw [fanoutLoop, fanoutLoop]
    by_cases hsrc : tl = source
    · rw [if_pos hsrc, if_pos hsrc]
      exact ih
    · rw [if_neg hsrc, if_neg hsrc]
      by_cases hX : tl = X
      · rw [hX, hfail]
        cases htr' : tr' text X (baseLang source) with
        | some t' =>
          dsimp only
          rw [List.filter_cons_of_neg (by simp)]
          exact ih
        | none =>
          dsimp only
          exact ih
      · rw [hagree text tl (baseLang source) hX]
        cases htr' : tr' text tl (baseLang source) with
        | some t' =>
          dsimp only
          rw [List.filter_cons_of_pos (by simp [hX])]
          rw [ih]
        | none =>
          dsimp only
          exact ih

theorem fanoutLoop_calls_count (translate : Translator) (text source : String)
    (conf : ℚ) (seq : ℤ) (X : String) : ∀ (targets : List String),
    (fanoutLoop translate text source conf seq targets).2.countP
        (fun call => call.target == X) =
      if X = source then 0 else targets.count X := by
  intro targets
  induction targets with
  | nil => simp [fanoutLoop]
  | cons tl rest ih =>
    rw [fanoutLoop]
    by_cases hsrc : tl = source
    · rw [if_pos hsrc, ih]
      by_cases hXs : X = source
      · rw [if_pos hXs, if_pos hXs]
      · rw [if_neg hXs, if_neg hXs, List.count_cons]
        have hne : ¬ (tl == X) = true := by
          simp only [beq_iff_eq]
          intro hh
          exact hXs (hh ▸ hsrc)
        rw [if_neg hne]
        omega
    · rw [if_neg hsrc]
      cases htr : translate text tl (baseLang source) with
      | some t =>
        dsimp only
        rw [List.countP_cons, ih]
        by_cases hXs : X = source
        · rw [if_pos hXs, if_pos hXs]
          have : ¬ ((⟨text, tl, baseLang source⟩ : TranslateCall).target == X) = true := by
            simp only [beq_iff_eq]
            intro hh
            exact hsrc (hh.trans hXs)
          rw [if_neg this]
        · rw [if_neg hXs, if_neg hXs, List.count_cons]
      | none =>
        dsimp only
        rw [List.countP_cons, ih]
        by_cases hXs : X = source
        · rw [if_pos hXs, if_pos hXs]
          have : ¬ ((⟨text, tl, baseLang source⟩ : TranslateCall).target == X) = true := by
            simp only [beq_iff_eq]
            intro hh
            exact hsrc (hh.trans hXs)
          rw [if_neg this]
        · rw [if_neg hXs, if_neg hXs, List.count_cons]

theorem worker_fanout_isolation (text source : String) (ts : Option ℚ) (X : String)
    (tr tr' : Translator)
    (hagree : ∀ txt tl src, tl ≠ X → tr txt tl src = tr' txt tl src)
    (hfail : tr text X (baseLang source) = none)
    (hXsrc : X ≠ baseLang source) : ∀ (targets : List String),
    (worker_fanout tr text source ts targets).1 =
      (worker_fanout tr' text source ts targets).1.filter (fun p => !(p.1 == X)) := by
  intro targets
  induction targets with
  | nil => rfl
  | cons tl rest ih =>
    rw [worker_fanout, worker_fanout]
    unfold translate_and_publish
    dsimp only
    by_cases hbase : tl = baseLang source
    · rw [if_pos hbase, if_pos hbase]
      dsimp only
      rw [List.filter_cons_of_pos (by
        rw [Bool.not_eq_true', beq_eq_false_iff_ne]
        exact fun hh => hXsrc (hh ▸ hbase))]
      rw [ih]
    · rw [if_neg hbase, if_neg hbase]
      by_cases hX : tl = X
      · rw [hX, hfail]
        cases htr' : tr' text X (baseLang source) with
        | some t' =>
          dsimp only
          rw [List.filter_cons_of_neg (by simp)]
          exact ih
        | none =>
          dsimp only
          exact ih
      · rw [hagree text tl (baseLang source) hX]
        cases htr' : tr' text tl (baseLang source) with
        | some t' =>
          dsimp only
          rw [List.filter_cons_of_pos (by simp [hX])]
          rw [ih]
        | none =>
          dsimp only
          exact ih

theorem worker_fanout_calls_count (tr : Translator) (text source : String)
    (ts : Option ℚ) (X : String) : ∀ (targets : List String),
    (worker_fanout tr text source ts targets).2.countP
        (fun call => call.target == X) =
      if X = baseLang source then 0 else targets.count X := by
  intro targets
  induction targets with
  | nil => simp [worker_fanout]
  | cons tl rest ih =>
    rw [worker_fanout]
    unfold translate_and_publish
    dsimp only
    by_cases hbase : tl = baseLang source
    · rw [if_pos hbase]
      dsimp only
      rw [List.nil_append, ih]
      by_cases hXb : X = baseLang source
      · rw [if_pos hXb, if_pos hXb]
      · rw [if_neg hXb, if_neg hXb, List.count_cons]
        have hne : ¬ (tl == X) = true := by
          simp only [beq_iff_eq]
          exact fun hh => hXb (hh ▸ hbase)
        rw [if_neg hne]
        omega
    · rw [if_neg hbase]
      cases htr : tr text tl (baseLang source) with
      | some t =>
        dsimp only
        rw [List.singleton_append, List.countP_cons, ih]
        by_cases hXb : X = baseLang source
        · rw [if_pos hXb, if_pos hXb]
          have hne : ¬ ((⟨text, tl, baseLang source⟩ : TranslateCall).target == X) = true := by
            simp only [beq_iff_eq]
            exact fun hh => hbase (hh.trans hXb)
          rw [if_neg hne]
        · rw [if_neg hXb, if_neg hXb, List.count_cons]
      | none =>
        dsimp only
        rw [List.singleton_append, List.countP_cons, ih]
        by_cases hXb : X = baseLang source
        · rw [if_pos hXb, if_pos hXb]
          have hne : ¬ ((⟨text, tl, baseLang source⟩ : TranslateCall).target == X) = true := by
            simp only [beq_iff_eq]
            exact fun hh => hbase (hh.trans hXb)
          rw [if_neg hne]
        · rw [if_neg hXb, if_neg hXb, List.count_cons]

/-- C8: a translation failure for one language X only removes X's record: the
store fanout of process_audio produces, for the failing translator, exactly
the succeeding translator's records minus X's (other languages unaffected),
no record under X, and at most one translate call for X (no retry); likewise
for the worker fanout. -/
theorem c8_failure_isolation (targets : List String) (text source : String)
    (conf : ℚ) (st : CounterState) (ts : Option ℚ) (X : String)
    (tr tr' : Translator) (hnd : targets.Nodup)
    (hagree : ∀ txt tl src, tl ≠ X → tr txt tl src = tr' txt tl src)
    (hfail : tr text X (baseLang source) = none) :
    (update_in_transaction tr targets text source conf st).1 =
      (update_in_transaction tr' targets text source conf st).1.filter
        (fun d => !(d.targetLanguage == X)) ∧
    (∀ d ∈ (update_in_transaction tr targets text source conf st).1,
      d.targetLanguage ≠ X) ∧
    (update_in_transaction tr targets text source conf st).2.1.countP
      (fun call => call.target == X) ≤ 1 ∧
    (X ≠ baseLang source →
      (worker_fanout tr text source ts targets).1 =
        (worker_fanout tr' text source ts targets).1.filter (fun p => !(p.1 == X))) ∧
    (worker_fanout tr text source ts targets).2.countP
      (fun call => call.target == X) ≤ 1 := by
  have hiso := fanoutLoop_isolation text source conf (get_next_sequence st).1 X tr tr'
    hagree hfail targets
  refine ⟨hiso, ?_, ?_, ?_, ?_⟩
  · intro d hd
    rw [show (update_in_transaction tr targets text source conf st).1 =
      (fanoutLoop tr text source conf (get_next_sequence st).1 targets).1 from rfl,
      hiso] at hd
    have := List.of_mem_filter hd
    simp only [Bool.not_eq_true', beq_eq_false_iff_ne] at this
    exact this
  · rw [show (update_in_transaction tr targets text source conf st).2.1 =
      (fanoutLoop tr text source conf (get_next_sequence st).1 targets).2 from rfl,
      fanoutLoop_calls_count tr text source conf (get_next_sequence st).1 X targets]
    split
    · omega
    · exact List.nodup_iff_count_le_one.mp hnd X
  · intro hXsrc
    exact worker_fanout_isolation text source ts X tr tr' hagree hfail hXsrc targets
  · rw [worker_fanout_calls_count tr text source ts X targets]
    split
    · omega
    · exact List.nodup_iff_count_le_one.mp hnd X

theorem c8_failure_isolation_witness :
    (["en", "fr", "es"] : List String).Nodup ∧
    (update_in_transaction
        (fun t tl _ => if tl = "fr" then none else some (tl ++ ":" ++ t))
        ["en", "fr", "es"] "hello" "en" 1 none).1 =
      (update_in_transaction (fun t tl _ => some (tl ++ ":" ++ t))
        ["en", "fr", "es"] "hello" "en" 1 none).1.filter
        (fun d => !(d.targetLanguage == "fr")) :=
  ⟨by decide,
    (c8_failure_isolation ["en", "fr", "es"] "hello" "en" 1 none (some 5) "fr"
      (fun t tl _ => if tl = "fr" then none else some (tl ++ ":" ++ t))
      (fun t tl _ => some (tl ++ ":" ++ t))
      (by decide)
      (fun txt tl src h => by dsimp only; rw [if_neg h])
      (by decide)).1⟩

/-- C9: joining an existing meeting leaves its code, status and sequence
counter unchanged; it only appends a participant entry and unions the language
into the target set when absent, so the target set only grows; the counter is
initialised to 0 only on the creation path. -/
theorem c9_join_frame :
    (∀ (st : MeetingState) (mc lang pid : String) (m : MeetingDoc),
      st.meeting = some m →
      ∃ m', (join_meeting st mc lang pid).meeting = some m' ∧
        m'.code = m.code ∧ m'.status = m.status ∧
        (join_meeting st mc lang pid).counter = st.counter ∧
        m'.participants = m.participants ++ [(pid, lang)] ∧
        m'.targetLanguages = (if lang ∈ m.targetLanguages then m.targetLanguages
          else m.targetLanguages ++ [lang]) ∧
        ∃ ext, m'.targetLanguages = m.targetLanguages ++ ext) ∧
    (∀ (st : MeetingState) (mc lang pid : String), st.meeting = none →
      (join_meeting st mc lang pid).counter = some (some 0)) := by
  constructor
  · intro st mc lang pid m hm
    obtain ⟨mtg, ctr⟩ := st
    simp only at hm
    subst hm
    by_cases hl : lang ∈ m.targetLanguages
    · refine ⟨⟨m.code, m.status, m.targetLanguages, m.participants ++ [(pid, lang)]⟩,
        ?_, rfl, rfl, ?_, rfl, ?_, ⟨[], by simp⟩⟩
      · simp only [join_meeting, if_pos hl]
      · simp only [join_meeting, if_pos hl]
      · simp only [if_pos hl]
    · refine ⟨⟨m.code, m.status, m.targetLanguages ++ [lang],
        m.participants ++ [(pid, lang)]⟩, ?_, rfl, rfl, ?_, rfl, ?_, ⟨[lang], rfl⟩⟩
      · simp only [join_meeting, if_neg hl]
      · simp only [join_meeting, if_neg hl]
      · simp only [if_neg hl]
  · intro st mc lang pid hm
    obtain ⟨mtg, ctr⟩ := st
    simp only at hm
    subst hm
    rfl

theorem c9_join_frame_witness :
    (⟨some ⟨"ABC123", "active", ["en"], [("p1", "en")]⟩, some (some 7)⟩ :
      MeetingState).meeting = some ⟨"ABC123", "active", ["en"], [("p1", "en")]⟩ ∧
    ∃ m', (join_meeting ⟨some ⟨"ABC123", "active", ["en"], [("p1", "en")]⟩,
        some (some 7)⟩ "ABC123" "fr" "p2").meeting = some m' ∧
      m'.code = "ABC123" ∧ m'.status = "active" ∧
      (join_meeting ⟨some ⟨"ABC123", "active", ["en"], [("p1", "en")]⟩,
        some (some 7)⟩ "ABC123" "fr" "p2").counter = some (some 7) ∧
      m'.participants = [("p1", "en")] ++ [("p2", "fr")] ∧
      m'.targetLanguages = (if "fr" ∈ ["en"] then ["en"] else ["en"] ++ ["fr"]) ∧
      ∃ ext, m'.targetLanguages = ["en"] ++ ext :=
  ⟨rfl, c9_join_frame.1 ⟨some ⟨"ABC123", "active", ["en"], [("p1", "en")]⟩,
    some (some 7)⟩ "ABC123" "fr" "p2" ⟨"ABC123", "active", ["en"], [("p1", "en")]⟩ rfl⟩

end Translate
